import Mathlib

/-!
Verification of the `monlp` simple tokenizer (`src/tokenizer/simple.go`).

The Go source is shallowly embedded below.  Bytes are modelled as `Nat`
(values < 256 in all reachable states), runes (Unicode code points) as `Nat`,
and the input buffer as `List Nat`.  The Go `iter.Seq` yield protocol is
modelled by an oracle `accept : Nat → Bool` giving the result of the i-th
call to `yield`; every token passed to `yield` is recorded in the `out`
field of the tokenizer state, and a `false` answer sets the `Done` flag
exactly where the Go code does.

Loops that are not structurally recursive in Go (the scan loop, the CJK
window loop, the rune-wise lowercasing loop) are written with an explicit
fuel argument so that every definition computes by `decide` / `rfl`; the
fuel passed by the wrappers is proved sufficient (the scan advances at
least one byte per iteration), which is itself one of the verified claims.
-/

namespace Monlp

/-- Constant `MAX_TOKEN_SIZE` from the Go source. -/
def MAX_TOKEN_SIZE : Nat := 23

/-- Constant `MARKER_PER_TOKENS` from the Go source. -/
def MARKER_PER_TOKENS : Nat := 100

/-- Model of the Go `Token` struct.  In Go a token is a fixed array
`TokenBytes [1+MAX_TOKEN_SIZE]byte` whose byte 0 is the recorded payload
length and whose bytes 1.. hold the payload (truncated by `copy` to the
23 available cells), plus `TokenPos int64`.  `lenByte` models
`TokenBytes[0]`, `payload` models the bytes actually written by `copy`,
and `tokenPos` models `TokenPos` (always non-negative here). -/
structure Token where
  lenByte : Nat
  payload : List Nat
  tokenPos : Nat
  deriving DecidableEq, Repr

/-- Build a token from a payload byte string, as the Go code does:
`TokenBytes[0] = byte(len(s))` and `copy(TokenBytes[1:], s)` (which copies
at most `MAX_TOKEN_SIZE` bytes). -/
def mkToken (s : List Nat) (pos : Nat) : Token :=
  { lenByte := s.length % 256, payload := s.take MAX_TOKEN_SIZE, tokenPos := pos }

/-- Model of the Go `SimpleTokenizer` struct (the `latinBuf` scratch buffer
is local to `outputLatin` below since the Go code resets it on entry; `Err`
is never written by the source).  `out` records every token passed to
`yield`, in order, and `nyield` counts the yield calls made so far (the
index fed to the `accept` oracle). -/
structure SimpleTokenizer where
  input : List Nat
  beginOff : Nat
  currTokenPos : Nat
  nextMarker : Nat
  done : Bool
  out : List Token
  nyield : Nat
  deriving DecidableEq, Repr

/-- Initial tokenizer state, as built by `NewSimpleTokenizer`. -/
def initTokenizer (input : List Nat) : SimpleTokenizer :=
  { input := input, beginOff := 0, currTokenPos := 0,
    nextMarker := MARKER_PER_TOKENS, done := false, out := [], nyield := 0 }

/-- Model of one call to the consumer `yield` function: the token is
delivered (recorded in `out`), and the oracle decides whether the consumer
continues. -/
def doYield (accept : Nat → Bool) (tk : Token) (m : SimpleTokenizer) :
    SimpleTokenizer × Bool :=
  ({ m with out := m.out ++ [tk], nyield := m.nyield + 1 }, accept m.nyield)

/-- Go `isBreakerRune`: `rune < 33 || rune == 127 || rune == utf8.RuneError`
(`utf8.RuneError` is U+FFFD). -/
def isBreakerRune (r : Nat) : Bool :=
  r < 33 || r == 127 || r == 0xFFFD

/-- Go `isLatin`: `rune < 0x7FF` (callers test `isBreakerRune` first). -/
def isLatin (r : Nat) : Bool :=
  r < 0x7FF

/-- Validity of the first continuation byte of a multi-byte sequence, per
the `acceptRanges` table used by Go `unicode/utf8.DecodeRune`: the lead
bytes 0xE0, 0xED, 0xF0 and 0xF4 restrict it beyond the plain 0x80..0xBF. -/
def acceptB1 (b0 b1 : Nat) : Bool :=
  if b0 == 0xE0 then 0xA0 ≤ b1 && b1 ≤ 0xBF
  else if b0 == 0xED then 0x80 ≤ b1 && b1 ≤ 0x9F
  else if b0 == 0xF0 then 0x90 ≤ b1 && b1 ≤ 0xBF
  else if b0 == 0xF4 then 0x80 ≤ b1 && b1 ≤ 0x8F
  else 0x80 ≤ b1 && b1 ≤ 0xBF

/-- Trailing continuation byte test (0x80..0xBF). -/
def contB (b : Nat) : Bool :=
  0x80 ≤ b && b ≤ 0xBF

/-- Model of Go `unicode/utf8.DecodeRune` (also the decoding performed by
`for pos, rune := range string(...)`): returns the decoded code point and
its byte size.  Empty input gives `(RuneError, 0)`; any invalid sequence
gives `(RuneError, 1)`.  The Go mask arithmetic `b0&0x1F`, `b&0x3F` etc.
is written as subtraction, which agrees with it on the guarded ranges. -/
def decodeRune : List Nat → Nat × Nat
  | [] => (0xFFFD, 0)
  | b0 :: rest =>
    if b0 < 0x80 then (b0, 1)
    else if b0 < 0xC2 then (0xFFFD, 1)
    else if b0 < 0xE0 then
      match rest with
      | b1 :: _ =>
        if contB b1 then ((b0 - 0xC0) * 64 + (b1 - 0x80), 2) else (0xFFFD, 1)
      | _ => (0xFFFD, 1)
    else if b0 < 0xF0 then
      match rest with
      | b1 :: b2 :: _ =>
        if acceptB1 b0 b1 && contB b2 then
          ((b0 - 0xE0) * 4096 + (b1 - 0x80) * 64 + (b2 - 0x80), 3)
        else (0xFFFD, 1)
      | _ => (0xFFFD, 1)
    else if b0 < 0xF5 then
      match rest with
      | b1 :: b2 :: b3 :: _ =>
        if acceptB1 b0 b1 && contB b2 && contB b3 then
          ((b0 - 0xF0) * 262144 + (b1 - 0x80) * 4096 + (b2 - 0x80) * 64 + (b3 - 0x80), 4)
        else (0xFFFD, 1)
      | _ => (0xFFFD, 1)
    else (0xFFFD, 1)

/-- Model of Go `unicode/utf8.EncodeRune`: surrogates and out-of-range
values are encoded as `RuneError` (EF BF BD). -/
def utf8Encode (r : Nat) : List Nat :=
  if r < 0x80 then [r]
  else if r < 0x800 then [0xC0 + r / 64, 0x80 + r % 64]
  else if r < 0x10000 then
    if 0xD800 ≤ r && r ≤ 0xDFFF then [0xEF, 0xBF, 0xBD]
    else [0xE0 + r / 4096, 0x80 + r / 64 % 64, 0x80 + r % 64]
  else if r < 0x110000 then
    [0xF0 + r / 262144, 0x80 + r / 4096 % 64, 0x80 + r / 64 % 64, 0x80 + r % 64]
  else [0xEF, 0xBF, 0xBD]

/-- Simple lowercase mapping applied rune-wise by Go `strings.ToLower`
(`unicode.ToLower`), restricted to code points below 0x800 — the only code
points that can occur in a Latin-run buffer, since a Latin run consists of
runes classified by `isLatin` (value < 0x7FF) plus the RuneError byte
handling that never reaches a Latin run.  Code points ≥ 0x800 (never
produced by `outputLatin`) are returned unchanged.  The ranges below are
the delta-encoded entries of Go's `unicode` case tables (which follow the
UnicodeData simple mappings) for U+0000..U+07FE. -/
def goToLower (r : Nat) : Nat :=
  if 0x41 ≤ r && r ≤ 0x5A then r + 32
  else if 0xC0 ≤ r && r ≤ 0xD6 then r + 32
  else if 0xD8 ≤ r && r ≤ 0xDE then r + 32
  else if r == 0x130 then 0x69
  else if 0x100 ≤ r && r ≤ 0x137 && r % 2 == 0 then r + 1
  else if 0x139 ≤ r && r ≤ 0x148 && r % 2 == 1 then r + 1
  else if 0x14A ≤ r && r ≤ 0x177 && r % 2 == 0 then r + 1
  else if r == 0x178 then 0xFF
  else if 0x179 ≤ r && r ≤ 0x17E && r % 2 == 1 then r + 1
  else if r == 0x181 then 0x253
  else if r == 0x182 || r == 0x184 then r + 1
  else if r == 0x186 then 0x254
  else if r == 0x187 then 0x188
  else if r == 0x189 || r == 0x18A then r + 0xCD
  else if r == 0x18B then 0x18C
  else if r == 0x18E then 0x1DD
  else if r == 0x18F then 0x259
  else if r == 0x190 then 0x25B
  else if r == 0x191 then 0x192
  else if r == 0x193 then 0x260
  else if r == 0x194 then 0x263
  else if r == 0x196 then 0x269
  else if r == 0x197 then 0x268
  else if r == 0x198 then 0x199
  else if r == 0x19C then 0x26F
  else if r == 0x19D then 0x272
  else if r == 0x19F then 0x275
  else if r == 0x1A0 || r == 0x1A2 || r == 0x1A4 || r == 0x1A7 then r + 1
  else if r == 0x1A6 then 0x280
  else if r == 0x1A9 then 0x283
  else if r == 0x1AC then 0x1AD
  else if r == 0x1AE then 0x288
  else if r == 0x1AF then 0x1B0
  else if r == 0x1B1 || r == 0x1B2 then r + 0xD9
  else if r == 0x1B3 || r == 0x1B5 then r + 1
  else if r == 0x1B7 then 0x292
  else if r == 0x1B8 || r == 0x1BC then r + 1
  else if r == 0x1C4 || r == 0x1C5 then 0x1C6
  else if r == 0x1C7 || r == 0x1C8 then 0x1C9
  else if r == 0x1CA || r == 0x1CB then 0x1CC
  else if 0x1CD ≤ r && r ≤ 0x1DB && r % 2 == 1 then r + 1
  else if 0x1DE ≤ r && r ≤ 0x1EE && r % 2 == 0 then r + 1
  else if r == 0x1F1 || r == 0x1F2 then 0x1F3
  else if r == 0x1F4 then 0x1F5
  else if r == 0x1F6 then 0x195
  else if r == 0x1F7 then 0x1BF
  else if 0x1F8 ≤ r && r ≤ 0x21E && r % 2 == 0 then r + 1
  else if r == 0x220 then 0x19E
  else if 0x222 ≤ r && r ≤ 0x232 && r % 2 == 0 then r + 1
  else if r == 0x23A then 0x2C65
  else if r == 0x23B then 0x23C
  else if r == 0x23D then 0x19A
  else if r == 0x23E then 0x2C66
  else if r == 0x241 then 0x242
  else if r == 0x243 then 0x180
  else if r == 0x244 then 0x289
  else if r == 0x245 then 0x28C
  else if 0x246 ≤ r && r ≤ 0x24E && r % 2 == 0 then r + 1
  else if r == 0x370 || r == 0x372 || r == 0x376 then r + 1
  else if r == 0x37F then 0x3F3
  else if r == 0x386 then 0x3AC
  else if 0x388 ≤ r && r ≤ 0x38A then r + 37
  else if r == 0x38C then 0x3CC
  else if r == 0x38E || r == 0x38F then r + 63
  else if 0x391 ≤ r && r ≤ 0x3A1 then r + 32
  else if 0x3A3 ≤ r && r ≤ 0x3AB then r + 32
  else if r == 0x3CF then 0x3D7
  else if 0x3D8 ≤ r && r ≤ 0x3EE && r % 2 == 0 then r + 1
  else if r == 0x3F4 then 0x3B8
  else if r == 0x3F7 then 0x3F8
  else if r == 0x3F9 then 0x3F2
  else if r == 0x3FA then 0x3FB
  else if 0x3FD ≤ r && r ≤ 0x3FF then r - 130
  else if 0x400 ≤ r && r ≤ 0x40F then r + 80
  else if 0x410 ≤ r && r ≤ 0x42F then r + 32
  else if 0x460 ≤ r && r ≤ 0x480 && r % 2 == 0 then r + 1
  else if 0x48A ≤ r && r ≤ 0x4BE && r % 2 == 0 then r + 1
  else if r == 0x4C0 then 0x4CF
  else if 0x4C1 ≤ r && r ≤ 0x4CD && r % 2 == 1 then r + 1
  else if 0x4D0 ≤ r && r ≤ 0x52E && r % 2 == 0 then r + 1
  else if 0x531 ≤ r && r ≤ 0x556 then r + 48
  else r

/-- Rune-wise lowercasing of a UTF-8 byte string, as performed by
`strings.ToLower(t.latinBuf.String())`: decode each rune (invalid bytes
become RuneError), map it, re-encode.  Fuel-recursive: each step consumes
at least one byte, so `bs.length` fuel suffices. -/
def toLowerBytesAux : Nat → List Nat → List Nat
  | 0, _ => []
  | _ + 1, [] => []
  | fuel + 1, b :: bs =>
    let d := decodeRune (b :: bs)
    utf8Encode (goToLower d.1) ++ toLowerBytesAux fuel ((b :: bs).drop d.2)

/-- Lowercase a byte string (model of `strings.ToLower` on UTF-8 bytes). -/
def toLowerBytes (bs : List Nat) : List Nat :=
  toLowerBytesAux bs.length bs

/-- ASCII digit or letter test from the `outputLatin` scan loop. -/
def isAlnumByte (b : Nat) : Bool :=
  (48 ≤ b && b ≤ 57) || (97 ≤ b && b ≤ 122) || (65 ≤ b && b ≤ 90)

/-- The byte-scan loop of Go `outputLatin` building `latinBuf`:
bytes > 127 are appended in 2-byte pairs (subject to the
`MAX_TOKEN_SIZE-1` cap, a pair never being split), ASCII bytes are
appended only when alphanumeric (subject to the `MAX_TOKEN_SIZE` cap);
hitting a cap breaks out of the loop.  The Go code reads `ibuf[i+1]`
without a bounds check; in every reachable call the run is a
concatenation of complete UTF-8 encodings of runes below 0x7FF, so a
byte > 127 is always followed by its continuation byte; `headD` supplies
a dummy 0 in the unreachable out-of-range case (where Go would panic). -/
def latinFilter : List Nat → List Nat → List Nat
  | [], acc => acc
  | b :: rest, acc =>
    if b > 127 then
      if MAX_TOKEN_SIZE - 1 ≤ acc.length then acc
      else
        match rest with
        | [] => acc ++ [b, 0]
        | b2 :: rest2 => latinFilter rest2 (acc ++ [b, b2])
    else
      if MAX_TOKEN_SIZE ≤ acc.length then acc
      else if isAlnumByte b then latinFilter rest (acc ++ [b])
      else latinFilter rest acc

/-- Decimal digits of a natural number in ASCII, modelling
`fmt.Sprintf("%d", n)` for the non-negative marker thresholds. -/
def decDigitsAux : Nat → Nat → List Nat → List Nat
  | 0, _, acc => acc
  | fuel + 1, n, acc =>
    if n < 10 then (48 + n) :: acc
    else decDigitsAux fuel (n / 10) ((48 + n % 10) :: acc)

/-- ASCII decimal representation of `n`. -/
def decDigits (n : Nat) : List Nat :=
  decDigitsAux (n + 1) n []

/-- Payload of a marker token: the ASCII bytes of `"_MARKER_" + n`. -/
def markerPayload (n : Nat) : List Nat :=
  [95, 77, 65, 82, 75, 69, 82, 95] ++ decDigits n

/-- Go `(*SimpleTokenizer).incrTokenCount`: advance the logical position
counter by `n`; if it reaches the next marker threshold, yield a marker
token whose position is the byte offset `pos`, then advance the threshold
(the threshold advances even when the consumer declines the marker). -/
def incrTokenCount (accept : Nat → Bool) (n : Nat) (pos : Nat)
    (m : SimpleTokenizer) : SimpleTokenizer :=
  let m1 := { m with currTokenPos := m.currTokenPos + n }
  if m1.nextMarker ≤ m1.currTokenPos then
    let p := doYield accept (mkToken (markerPayload m1.nextMarker) pos) m1
    let m2 := if p.2 then p.1 else { p.1 with done := true }
    { m2 with nextMarker := m2.nextMarker + MARKER_PER_TOKENS }
  else m1

/-- Go `(*SimpleTokenizer).outputLatin`: filter and truncate the run bytes
`input[begin:pos]`, and if more than one byte survives, emit the
lowercased result at the current logical position (stopping on consumer
decline, before the counter advance); in all other paths advance the
counter by one. -/
def outputLatin (accept : Nat → Bool) (pos : Nat) (m : SimpleTokenizer) :
    SimpleTokenizer :=
  let ibuf := (m.input.drop m.beginOff).take (pos - m.beginOff)
  let buf := latinFilter ibuf []
  if 1 < buf.length then
    let ls := toLowerBytes buf
    let p := doYield accept (mkToken ls m.currTokenPos) m
    if p.2 then incrTokenCount accept 1 pos p.1
    else { p.1 with done := true }
  else incrTokenCount accept 1 pos m

/-- The window-sliding loop of Go `outputCJK`.  `ia ib ic id` are the four
running byte offsets into `ibuf` (bounding 0, 1, 2 and 3 code points past
the current window start), `bPos` is the byte offset of the run start in
the whole input (markers emitted inside the loop record `bPos + ia`).
Fuel-recursive; the wrapper passes `ibuf.length + 1`, which is proved
sufficient since `ia` strictly increases while the loop runs. -/
def cjkLoop (accept : Nat → Bool) (ibuf : List Nat) (bPos : Nat) :
    Nat → Nat → Nat → Nat → Nat → SimpleTokenizer → SimpleTokenizer
  | 0, _, _, _, _, m => m
  | fuel + 1, ia, ib, ic, id, m =>
    if ia < id then
      let tk := mkToken ((ibuf.drop ia).take (id - ia)) m.currTokenPos
      let p := doYield accept tk m
      if !p.2 then { p.1 with done := true }
      else
        let m2 := incrTokenCount accept 1 (bPos + ia) p.1
        if m2.done then m2
        else
          let sz := (decodeRune (ibuf.drop id)).2
          cjkLoop accept ibuf bPos fuel ib ic id (id + sz) m2
    else m

/-- Go `(*SimpleTokenizer).outputCJK`: slide windows of up to three code
points across the run bytes `input[begin:pos]`, emitting each window's raw
bytes at the current logical position and advancing the counter once per
window. -/
def outputCJK (accept : Nat → Bool) (pos : Nat) (m : SimpleTokenizer) :
    SimpleTokenizer :=
  let ibuf := (m.input.drop m.beginOff).take (pos - m.beginOff)
  let ib := (decodeRune ibuf).2
  let ic := ib + (decodeRune (ibuf.drop ib)).2
  let id := ic + (decodeRune (ibuf.drop ic)).2
  cjkLoop accept ibuf m.beginOff (ibuf.length + 1) 0 ib ic id m

/-- The four handler states of the Go state machine (the Go code passes
handler functions as values; the function returned by each handler is one
of these four). -/
inductive HState
  | hBegin
  | hBreaker
  | hLatin
  | hCJK
  deriving DecidableEq, Repr

/-- One dispatch of the state machine: the Go handlers `beginToken`,
`breakerToken`, `latinToken` and `cjkToken`, as a single step function
from the current handler to the mutated state and next handler.  Note the
commented-out branch of Go `cjkToken`: a Latin rune does not close a CJK
run.  `breakerToken` reads `t.input[t.begin]` (in reachable states
`begin` indexes a real byte; `getD` supplies 0 otherwise). -/
def step (accept : Nat → Bool) (h : HState) (pos : Nat) (r : Nat)
    (m : SimpleTokenizer) : SimpleTokenizer × HState :=
  match h with
  | .hBegin =>
    if isBreakerRune r then ({ m with beginOff := pos }, .hBreaker)
    else if isLatin r then ({ m with beginOff := pos }, .hLatin)
    else ({ m with beginOff := pos }, .hCJK)
  | .hBreaker =>
    if isBreakerRune r then (m, .hBreaker)
    else
      let m1 := if m.beginOff + 1 < pos || !(m.input.getD m.beginOff 0 == 32)
        then incrTokenCount accept 1 pos m else m
      if isLatin r then ({ m1 with beginOff := pos }, .hLatin)
      else ({ m1 with beginOff := pos }, .hCJK)
  | .hLatin =>
    if isBreakerRune r then
      let m1 := outputLatin accept pos m
      ({ m1 with beginOff := pos }, .hBreaker)
    else if isLatin r then (m, .hLatin)
    else
      let m1 := outputLatin accept pos m
      ({ m1 with beginOff := pos }, .hCJK)
  | .hCJK =>
    if isBreakerRune r then
      let m1 := outputCJK accept pos m
      ({ m1 with beginOff := pos }, .hBreaker)
    else (m, .hCJK)

/-- The scan loop of Go `Tokenize`: while bytes remain, return early if
`Done` is set, otherwise decode the rune at `pos`, dispatch the current
handler, and continue at `pos + size`; when the input is exhausted the
handler is fed a synthetic space at offset `input.length` (the flush —
note that Go performs this call even when `Done` was set while handling
the final rune).  Fuel-recursive; `input.length + 1` fuel is proved
sufficient since each iteration advances `pos` by at least one byte. -/
def scanAux (accept : Nat → Bool) (input : List Nat) :
    Nat → HState → Nat → SimpleTokenizer → SimpleTokenizer
  | 0, _, _, m => m
  | fuel + 1, h, pos, m =>
    if pos < input.length then
      if m.done then m
      else
        let d := decodeRune (input.drop pos)
        let s := step accept h pos d.1 m
        scanAux accept input fuel s.2 (pos + d.2) s.1
    else (step accept h input.length 32 m).1

/-- Go `(*SimpleTokenizer).Tokenize` driven by the consumer oracle
`accept`: returns the final tokenizer state (with `out` holding every
token passed to `yield`).  An empty input returns immediately. -/
def tokenizeWith (accept : Nat → Bool) (input : List Nat) : SimpleTokenizer :=
  if input.length = 0 then initTokenizer input
  else scanAux accept input (input.length + 1) .hBegin 0 (initTokenizer input)

/-- The emitted token sequence for a consumer that never cancels. -/
def tokenize (input : List Nat) : List Token :=
  (tokenizeWith (fun _ => true) input).out

/-- The successive byte offsets visited by the scan loop (the values of
`pos` at the top of each iteration of the `range` loop). -/
def scanPositionsAux (input : List Nat) : Nat → Nat → List Nat
  | 0, _ => []
  | fuel + 1, pos =>
    if pos < input.length then
      pos :: scanPositionsAux input fuel (pos + (decodeRune (input.drop pos)).2)
    else []

/-- Byte offsets visited by the scan over `input`. -/
def scanPositions (input : List Nat) : List Nat :=
  scanPositionsAux input (input.length + 1) 0

/-! ### Basic facts about the UTF-8 decoder -/

/-- Decoding a non-empty byte string always consumes at least one byte
(this is the forward-progress guarantee of the scan). -/
theorem decodeRune_size_pos (l : List Nat) (h : l ≠ []) : 1 ≤ (decodeRune l).2 := by
  rcases l with - | ⟨b0, - | ⟨b1, - | ⟨b2, - | ⟨b3, rest⟩⟩⟩⟩
  · exact absurd rfl h
  all_goals simp only [decodeRune] ; split_ifs <;> simp

/-- Decoding never consumes more bytes than are present. -/
theorem decodeRune_size_le (l : List Nat) : (decodeRune l).2 ≤ l.length := by
  rcases l with - | ⟨b0, - | ⟨b1, - | ⟨b2, - | ⟨b3, rest⟩⟩⟩⟩
  · simp [decodeRune]
  all_goals simp only [decodeRune] ; split_ifs <;> simp [List.length] <;> omega

/-- Decoding consumes zero bytes exactly on empty input. -/
theorem decodeRune_size_eq_zero (l : List Nat) : (decodeRune l).2 = 0 ↔ l = [] := by
  constructor
  · intro h
    by_contra hne
    have := decodeRune_size_pos l hne
    omega
  · intro h
    subst h
    rfl

/-! ### Basic facts about `incrTokenCount` -/

/-- The logical position counter always advances by exactly `n`, whether or
not a marker fires. -/
theorem incrTokenCount_currTokenPos (accept : Nat → Bool) (n pos : Nat)
    (m : SimpleTokenizer) :
    (incrTokenCount accept n pos m).currTokenPos = m.currTokenPos + n := by
  simp only [incrTokenCount, doYield]
  split_ifs <;> rfl

/-- When the advanced counter stays below the threshold, `incrTokenCount`
only bumps the counter. -/
theorem incrTokenCount_noMarker (accept : Nat → Bool) (n pos : Nat)
    (m : SimpleTokenizer) (h : m.currTokenPos + n < m.nextMarker) :
    incrTokenCount accept n pos m = { m with currTokenPos := m.currTokenPos + n } := by
  simp only [incrTokenCount]
  rw [if_neg (by simp ; omega)]

/-! ### Claim theorems -/

/-- C7: every decoded code point is classified by exactly these thresholds:
it is a breaker iff its value is < 33, or it equals 127 (ASCII DEL), or it
equals the decode-error sentinel U+FFFD; among non-breakers it is
Latin-class iff its value is < 0x7FF, and CJK-class (≥ 0x7FF, and neither
a control/DEL value nor the sentinel) otherwise. -/
theorem C7_rune_classification (r : Nat) :
    (isBreakerRune r = true ↔ (r < 33 ∨ r = 127 ∨ r = 0xFFFD)) ∧
    (isBreakerRune r = false → (isLatin r = true ↔ r < 0x7FF)) ∧
    (isBreakerRune r = false → isLatin r = false →
      (33 ≤ r ∧ r ≠ 127 ∧ r ≠ 0xFFFD ∧ 0x7FF ≤ r)) := by
  refine ⟨?_, ?_, ?_⟩ <;> simp [isBreakerRune, isLatin] <;> omega

/-- Witness for C7 at the concrete code point U+023A. -/
theorem C7_rune_classification_witness :
    isLatin 0x23A = true ↔ 0x23A < 0x7FF :=
  (C7_rune_classification 0x23A).2.1 (by decide)

/-- C6: the run-breaking relation is asymmetric.  In the Latin state a
CJK-class rune closes the run (`outputLatin` runs and the machine moves to
the CJK state), while in the CJK state a Latin-class rune leaves the
machine state completely unchanged (the rune is kept as a run member).
Concretely, `中a中` yields the mixed n-grams `中a中`, `a中`, `中`, while in
`ab中` the CJK character closes the Latin run `ab`. -/
theorem C6_asymmetric_run_breaking (accept : Nat → Bool) (m : SimpleTokenizer)
    (pos r r' : Nat) (hb : isBreakerRune r = false) (hl : isLatin r = false)
    (hb' : isBreakerRune r' = false) (hl' : isLatin r' = true) :
    step accept .hLatin pos r m =
      ({ outputLatin accept pos m with beginOff := pos }, .hCJK) ∧
    step accept .hCJK pos r' m = (m, .hCJK) ∧
    tokenize [0xE4, 0xB8, 0xAD, 97, 0xE4, 0xB8, 0xAD] =
      [mkToken [0xE4, 0xB8, 0xAD, 97, 0xE4, 0xB8, 0xAD] 0,
       mkToken [97, 0xE4, 0xB8, 0xAD] 1, mkToken [0xE4, 0xB8, 0xAD] 2] ∧
    tokenize [97, 98, 0xE4, 0xB8, 0xAD] =
      [mkToken [97, 98] 0, mkToken [0xE4, 0xB8, 0xAD] 1] := by
  refine ⟨?_, ?_, by decide, by decide⟩
  · simp [step, hb, hl]
  · simp [step, hb', hl']

/-- Witness for C6 at the concrete runes U+4E2D (CJK) and `a`. -/
theorem C6_asymmetric_run_breaking_witness :
    step (fun _ => true) .hCJK 3 97 (initTokenizer [1, 2, 3]) =
      (initTokenizer [1, 2, 3], .hCJK) :=
  (C6_asymmetric_run_breaking (fun _ => true) (initTokenizer [1, 2, 3]) 3 0x4E2D 97
    (by decide) (by decide) (by decide) (by decide)).2.1

/-- C10: a genuine, well-formed three-byte U+FFFD in valid UTF-8 decodes to
the rune 0xFFFD with size 3, which `isBreakerRune` classifies as a breaker
because it compares against the decode-error sentinel; consequently it
closes an open Latin or CJK run exactly like any breaker, and (as the
concrete trace shows) its bytes never enter a token payload. -/
theorem C10_replacement_char_is_breaker :
    decodeRune [0xEF, 0xBF, 0xBD] = (0xFFFD, 3) ∧
    isBreakerRune 0xFFFD = true ∧
    (∀ (accept : Nat → Bool) (m : SimpleTokenizer) (pos : Nat),
      step accept .hLatin pos 0xFFFD m =
        ({ outputLatin accept pos m with beginOff := pos }, .hBreaker)) ∧
    (∀ (accept : Nat → Bool) (m : SimpleTokenizer) (pos : Nat),
      step accept .hCJK pos 0xFFFD m =
        ({ outputCJK accept pos m with beginOff := pos }, .hBreaker)) ∧
    tokenize [97, 98, 0xEF, 0xBF, 0xBD, 99, 100] =
      [mkToken [97, 98] 0, mkToken [99, 100] 2] := by
  have hb : isBreakerRune 0xFFFD = true := by decide
  refine ⟨by decide, hb, ?_, ?_, by decide⟩
  · intro accept m pos
    simp [step, hb]
  · intro accept m pos
    simp [step, hb]

/-- C1 evaluation at the failing input: tokenizing eight copies of U+023A
(Ⱥ, bytes C8 BA) emits one token whose recorded length byte is 24 — above
`MAX_TOKEN_SIZE` — while only 23 payload bytes were actually stored: the
2-byte Ⱥ passes the pre-case-fold truncation check but lowercases to the
3-byte ⱥ, so the claimed 1..23 bound on the recorded payload length is
violated (and the final ⱥ is split by the 23-byte copy). -/
theorem C1_overlong_recorded_length :
    (tokenize [200, 186, 200, 186, 200, 186, 200, 186,
               200, 186, 200, 186, 200, 186, 200, 186]).map Token.lenByte = [24] ∧
    (tokenize [200, 186, 200, 186, 200, 186, 200, 186,
               200, 186, 200, 186, 200, 186, 200, 186]).map
        (fun t => t.payload.length) = [23] ∧
    MAX_TOKEN_SIZE < 24 := by
  refine ⟨by decide, by decide, by decide⟩

/-- C5 counterexample: on input `İ` (U+0130, bytes C4 B0) a token IS
emitted although its normalized payload has byte length 1 (İ lowercases to
the single byte `i`), refuting the claim that a token is emitted only when
the normalized result is longer than 1 byte: the code tests the length of
the buffer before case-folding. -/
theorem C5_counterexample :
    tokenize [196, 176] = [{ lenByte := 1, payload := [105], tokenPos := 0 }] ∧
    (toLowerBytes (latinFilter [196, 176] [])).length = 1 :=
  ⟨by decide, by decide⟩

/-- C8 evaluation at the failing scenario: with a consumer that declines
from the first token, tokenizing `ab中` sets `Done` while handling the
final rune (the CJK character that closes the Latin run `ab`), yet the
end-of-input flush still runs: `outputCJK` constructs the token `中` and
calls `yield` again after the consumer already declined, contradicting the
claim that cancellation stops all further token construction (in Go this
second call into a stopped `range`-over-func iterator panics). -/
theorem C8_flush_after_cancellation :
    (tokenizeWith (fun _ => false) [97, 98, 0xE4, 0xB8, 0xAD]).done = true ∧
    (tokenizeWith (fun _ => false) [97, 98, 0xE4, 0xB8, 0xAD]).out =
      [mkToken [97, 98] 0, mkToken [0xE4, 0xB8, 0xAD] 0] :=
  ⟨by decide, by decide⟩

/-- C4: when a breaker run is closed by an arriving Latin or CJK character,
the logical-position counter stays put if the run consists of exactly one
plain ASCII space byte, and advances by exactly 1 for every other run
(longer runs, or a single non-space breaker).  Every breaker code point
except a well-formed U+FFFD occupies one byte, so the byte test
`pos > begin+1` in the source coincides with the character-count test. -/
theorem C4_breaker_run_close (accept : Nat → Bool) (m : SimpleTokenizer)
    (pos r : Nat) (hr : isBreakerRune r = false)
    (hlo : m.beginOff < pos) (hhi : pos ≤ m.input.length) :
    ((m.input.drop m.beginOff).take (pos - m.beginOff) = [32] →
      (step accept .hBreaker pos r m).1.currTokenPos = m.currTokenPos) ∧
    ((m.input.drop m.beginOff).take (pos - m.beginOff) ≠ [32] →
      (step accept .hBreaker pos r m).1.currTokenPos = m.currTokenPos + 1) := by
  have hblen : m.beginOff < m.input.length := by omega
  have hdrop := List.drop_eq_getElem_cons hblen
  have hrun : (m.input.drop m.beginOff).take (pos - m.beginOff) = [32] ↔
      (¬ (m.beginOff + 1 < pos) ∧ m.input.getD m.beginOff 0 = 32) := by
    constructor
    · intro h
      have hlen : ((m.input.drop m.beginOff).take (pos - m.beginOff)).length = 1 := by
        rw [h] ; rfl
      rw [List.length_take, List.length_drop] at hlen
      have h1 : pos - m.beginOff = 1 := by omega
      rw [h1, hdrop] at h
      simp only [List.take_succ_cons, List.take_zero, List.cons.injEq, and_true] at h
      exact ⟨by omega, by rw [List.getD_eq_getElem _ _ hblen] ; exact h⟩
    · rintro ⟨h1, h2⟩
      have h1' : pos - m.beginOff = 1 := by omega
      rw [h1', hdrop]
      simp only [List.take_succ_cons, List.take_zero, List.cons.injEq, and_true]
      rw [List.getD_eq_getElem _ _ hblen] at h2
      exact h2
  constructor
  · intro h
    rw [hrun] at h
    obtain ⟨h1, h2⟩ := h
    rw [List.getD_eq_getElem?_getD] at h2
    by_cases hL : isLatin r = true <;>
      simp [step, hr, hL, h1, h2, List.getD_eq_getElem?_getD]
  · intro h
    rw [ne_eq, hrun] at h
    by_cases hx : m.beginOff + 1 < pos
    · by_cases hL : isLatin r = true <;>
        simp [step, hr, hL, hx, incrTokenCount_currTokenPos]
    · have hy : m.input.getD m.beginOff 0 ≠ 32 := fun hg => h ⟨hx, hg⟩
      rw [ne_eq, List.getD_eq_getElem?_getD] at hy
      by_cases hL : isLatin r = true <;>
        simp [step, hr, hL, hx, hy, List.getD_eq_getElem?_getD,
          incrTokenCount_currTokenPos]

/-- Witness for C4: a two-space run advances the counter by one, in the
state reached after scanning `a  b` up to the second space. -/
theorem C4_breaker_run_close_witness :
    ((([97, 32, 32, 98] : List Nat).drop 1).take (3 - 1) ≠ [32]) ∧
    (step (fun _ => true) .hBreaker 3 98
      { input := [97, 32, 32, 98], beginOff := 1, currTokenPos := 1,
        nextMarker := 100, done := false, out := [], nyield := 0 }).1.currTokenPos
      = 1 + 1 :=
  ⟨by decide,
    (C4_breaker_run_close (fun _ => true)
      { input := [97, 32, 32, 98], beginOff := 1, currTokenPos := 1,
        nextMarker := 100, done := false, out := [], nyield := 0 }
      3 98 (by decide) (by decide) (by decide)).2 (by decide)⟩

/-- C5 (amended): when a Latin run is closed, a token is emitted iff the
filtered, truncated buffer has byte length greater than 1 BEFORE
case-folding (the emitted payload is the case-folded buffer, which can end
up only 1 byte long, e.g. for `İ`); the token position is the counter value
taken before the advance, and the counter advances by exactly 1 whether or
not a token was emitted.  Stated for a consumer that accepts the token and
away from a marker threshold. -/
theorem C5_latin_run_emission (accept : Nat → Bool) (m : SimpleTokenizer)
    (pos : Nat) (hacc : accept m.nyield = true)
    (hmk : m.currTokenPos + 1 < m.nextMarker) :
    (outputLatin accept pos m).currTokenPos = m.currTokenPos + 1 ∧
    (outputLatin accept pos m).done = m.done ∧
    (1 < (latinFilter ((m.input.drop m.beginOff).take (pos - m.beginOff)) []).length →
      (outputLatin accept pos m).out = m.out ++
        [mkToken
          (toLowerBytes (latinFilter ((m.input.drop m.beginOff).take (pos - m.beginOff)) []))
          m.currTokenPos]) ∧
    ((latinFilter ((m.input.drop m.beginOff).take (pos - m.beginOff)) []).length ≤ 1 →
      (outputLatin accept pos m).out = m.out) := by
  simp only [outputLatin, doYield, hacc, if_true]
  by_cases hb : 1 < (latinFilter ((m.input.drop m.beginOff).take (pos - m.beginOff)) []).length
  · rw [if_pos hb, incrTokenCount_noMarker _ _ _ _ (by simpa using hmk)]
    exact ⟨rfl, rfl, fun _ => rfl, fun h => absurd hb (by omega)⟩
  · rw [if_neg hb, incrTokenCount_noMarker _ _ _ _ hmk]
    exact ⟨rfl, rfl, fun h => absurd h hb, fun _ => rfl⟩

/-- Witness for C5 (amended) on the run `ab` of input `ab`. -/
theorem C5_latin_run_emission_witness :
    (outputLatin (fun _ => true) 2 (initTokenizer [97, 98])).currTokenPos = 0 + 1 ∧
    (outputLatin (fun _ => true) 2 (initTokenizer [97, 98])).out =
      [] ++ [mkToken (toLowerBytes (latinFilter [97, 98] [])) 0] := by
  have h := C5_latin_run_emission (fun _ => true) (initTokenizer [97, 98]) 2
    (by decide) (by decide)
  exact ⟨h.1, by simpa using h.2.2.1 (by decide)⟩

/-! ### The marker-counter invariant (claim C3) -/

/-- Invariant tying the logical-position counter to the next marker
threshold: the threshold is a positive multiple of the marker interval
lying in the window `(currTokenPos, currTokenPos + 100]`.  It holds
initially and is preserved by every dispatch of the state machine. -/
def MarkerInv (m : SimpleTokenizer) : Prop :=
  m.nextMarker % MARKER_PER_TOKENS = 0 ∧ MARKER_PER_TOKENS ≤ m.nextMarker ∧
  m.currTokenPos < m.nextMarker ∧ m.nextMarker ≤ m.currTokenPos + MARKER_PER_TOKENS

theorem markerInv_doYield (accept : Nat → Bool) (tk : Token)
    (m : SimpleTokenizer) (h : MarkerInv m) :
    MarkerInv (doYield accept tk m).1 := by
  simpa [MarkerInv, doYield] using h

theorem markerInv_incr (accept : Nat → Bool) (pos : Nat) (m : SimpleTokenizer)
    (h : MarkerInv m) : MarkerInv (incrTokenCount accept 1 pos m) := by
  obtain ⟨h1, h2, h3, h4⟩ := h
  simp only [incrTokenCount, doYield, MarkerInv, MARKER_PER_TOKENS] at *
  split_ifs <;> simp <;> omega

theorem markerInv_cjkLoop (accept : Nat → Bool) (ibuf : List Nat) (bPos : Nat)
    (fuel : Nat) :
    ∀ (ia ib ic id : Nat) (m : SimpleTokenizer), MarkerInv m →
      MarkerInv (cjkLoop accept ibuf bPos fuel ia ib ic id m) := by
  induction fuel with
  | zero => intro ia ib ic id m h ; exact h
  | succ fuel ih =>
    intro ia ib ic id m h
    simp only [cjkLoop]
    split_ifs with h1 h2 h3
    · simpa [MarkerInv, doYield] using h
    · exact markerInv_incr _ _ _ (markerInv_doYield _ _ _ h)
    · exact ih _ _ _ _ _ (markerInv_incr _ _ _ (markerInv_doYield _ _ _ h))
    · exact h

theorem markerInv_outputLatin (accept : Nat → Bool) (pos : Nat)
    (m : SimpleTokenizer) (h : MarkerInv m) :
    MarkerInv (outputLatin accept pos m) := by
  simp only [outputLatin]
  split_ifs with h1 h2
  · exact markerInv_incr _ _ _ (markerInv_doYield _ _ _ h)
  · simpa [MarkerInv, doYield] using h
  · exact markerInv_incr _ _ _ h

theorem markerInv_outputCJK (accept : Nat → Bool) (pos : Nat)
    (m : SimpleTokenizer) (h : MarkerInv m) :
    MarkerInv (outputCJK accept pos m) :=
  markerInv_cjkLoop _ _ _ _ _ _ _ _ _ h

theorem markerInv_step (accept : Nat → Bool) (h : HState) (pos r : Nat)
    (m : SimpleTokenizer) (hm : MarkerInv m) :
    MarkerInv (step accept h pos r m).1 := by
  cases h <;> simp only [step] <;> split_ifs <;>
    simp only [MarkerInv] at * <;>
    first
      | exact hm
      | simpa using markerInv_outputLatin accept pos m hm
      | simpa using markerInv_outputCJK accept pos m hm
      | simpa using markerInv_incr accept pos m hm

/-- C3: markers.  The threshold/counter invariant holds in the initial
state and is preserved by every dispatch of the state machine; and under
it, each advance of the logical-position counter (all advances go through
`incrTokenCount` with `n = 1`) emits exactly one marker token exactly when
the advanced counter reaches a multiple of the marker interval 100: its
payload is the ASCII string `_MARKER_<threshold>` for the crossed multiple
(= the advanced counter value), its recorded position is the byte offset
`pos` passed by the caller at the moment of crossing (callers pass byte
offsets, not logical positions), and the threshold then advances by 100 —
so no threshold fires twice.  When no multiple is reached, no token is
produced and the threshold is unchanged. -/
theorem C3_marker_injection :
    (∀ input : List Nat, MarkerInv (initTokenizer input)) ∧
    (∀ (accept : Nat → Bool) (h : HState) (pos r : Nat) (m : SimpleTokenizer),
      MarkerInv m → MarkerInv (step accept h pos r m).1) ∧
    (∀ (accept : Nat → Bool) (pos : Nat) (m : SimpleTokenizer), MarkerInv m →
      (incrTokenCount accept 1 pos m).currTokenPos = m.currTokenPos + 1 ∧
      ((m.currTokenPos + 1) % MARKER_PER_TOKENS = 0 →
        (incrTokenCount accept 1 pos m).out =
          m.out ++ [mkToken (markerPayload (m.currTokenPos + 1)) pos] ∧
        (incrTokenCount accept 1 pos m).nextMarker =
          m.nextMarker + MARKER_PER_TOKENS) ∧
      ((m.currTokenPos + 1) % MARKER_PER_TOKENS ≠ 0 →
        (incrTokenCount accept 1 pos m).out = m.out ∧
        (incrTokenCount accept 1 pos m).nextMarker = m.nextMarker)) := by
  refine ⟨?_, markerInv_step, ?_⟩
  · intro input
    simp [MarkerInv, initTokenizer, MARKER_PER_TOKENS]
  · intro accept pos m hm
    obtain ⟨h1, h2, h3, h4⟩ := hm
    simp only [MARKER_PER_TOKENS] at h1 h2 h4
    refine ⟨incrTokenCount_currTokenPos accept 1 pos m, ?_, ?_⟩
    · intro hc
      simp only [MARKER_PER_TOKENS] at hc
      have hEq : m.nextMarker = m.currTokenPos + 1 := by omega
      simp only [incrTokenCount, doYield]
      have hcond : ({ m with currTokenPos := m.currTokenPos + 1 } :
          SimpleTokenizer).nextMarker ≤
          ({ m with currTokenPos := m.currTokenPos + 1 } :
          SimpleTokenizer).currTokenPos := by
        show m.nextMarker ≤ m.currTokenPos + 1
        omega
      rw [if_pos hcond]
      split_ifs <;> refine ⟨?_, ?_⟩ <;> simp [hEq, MARKER_PER_TOKENS]
    · intro hc
      simp only [MARKER_PER_TOKENS] at hc
      have hlt : m.currTokenPos + 1 < m.nextMarker := by omega
      rw [incrTokenCount_noMarker _ _ _ _ hlt]
      exact ⟨rfl, rfl⟩

/-- Witness for C3 at a concrete crossing state: counter 99, threshold
100; the advance emits `_MARKER_100` recorded at byte offset 523. -/
theorem C3_marker_injection_witness :
    (incrTokenCount (fun _ => true) 1 523
        { input := [], beginOff := 0, currTokenPos := 99, nextMarker := 100,
          done := false, out := [], nyield := 0 }).out =
      [] ++ [mkToken (markerPayload 100) 523] :=
  ((C3_marker_injection.2.2 (fun _ => true) 523
      { input := [], beginOff := 0, currTokenPos := 99, nextMarker := 100,
        done := false, out := [], nyield := 0 }
      ⟨by decide, by decide, by decide, by decide⟩).2.1 (by decide)).1

/-! ### Forward progress and termination (claim C9) -/

/-- The head of the visited-offset list, when it exists, is the starting
offset. -/
theorem scanPositionsAux_head (input : List Nat) (fuel pos y : Nat)
    (h : (scanPositionsAux input fuel pos).head? = some y) : y = pos := by
  cases fuel with
  | zero => simp [scanPositionsAux] at h
  | succ fuel =>
    simp only [scanPositionsAux] at h
    split_ifs at h with h1
    · simp at h
      omega
    · simp at h

/-- The visited byte offsets are strictly increasing: each loop iteration
advances the cursor by the decoded size, which is at least one byte. -/
theorem scanPositionsAux_chain (input : List Nat) (fuel : Nat) :
    ∀ pos : Nat, List.Chain' (· < ·) (scanPositionsAux input fuel pos) := by
  induction fuel with
  | zero => intro pos ; simp [scanPositionsAux]
  | succ fuel ih =>
    intro pos
    simp only [scanPositionsAux]
    split_ifs with h1
    · refine List.Chain'.cons' (ih _) ?_
      intro y hy
      have hne : input.drop pos ≠ [] := by
        intro hnil
        have hlen := congrArg List.length hnil
        simp at hlen
        omega
      have hsz := decodeRune_size_pos (input.drop pos) hne
      have hhd := scanPositionsAux_head input fuel _ y (Option.mem_def.mp hy)
      omega
    · exact List.chain'_nil

/-- Fuel-irrelevance of the scan loop: any two fuel values above the
remaining byte count give the same result, i.e. the scan reaches its
end-of-input flush within `input.length - pos` iterations because every
iteration advances the cursor by at least one byte. -/
theorem scanAux_congr (accept : Nat → Bool) (input : List Nat) :
    ∀ (f1 f2 : Nat) (h : HState) (pos : Nat) (m : SimpleTokenizer),
      input.length - pos < f1 → input.length - pos < f2 →
      scanAux accept input f1 h pos m = scanAux accept input f2 h pos m := by
  intro f1
  induction f1 with
  | zero =>
    intro f2 h pos m hf1 hf2
    omega
  | succ f1 ih =>
    intro f2 h pos m hf1 hf2
    cases f2 with
    | zero => omega
    | succ f2 =>
      simp only [scanAux]
      split_ifs with h1 h2
      · rfl
      · have hne : input.drop pos ≠ [] := by
          intro hnil
          have hlen := congrArg List.length hnil
          simp at hlen
          omega
        have hsz := decodeRune_size_pos (input.drop pos) hne
        exact ih f2 _ _ _ (by omega) (by omega)
      · rfl

/-- Offset invariant of the CJK window loop: the four offsets are ordered,
bounded by the buffer length, and each adjacent pair is either strictly
increasing or already pinned to the end of the buffer. -/
def CjkInv (len ia ib ic id : Nat) : Prop :=
  ia ≤ ib ∧ ib ≤ ic ∧ ic ≤ id ∧ id ≤ len ∧
  (ia < ib ∨ ib = len) ∧ (ib < ic ∨ ic = len) ∧ (ic < id ∨ id = len)

/-- Extending an in-range offset by the size of the rune decoded there
stays in range, and strictly advances unless the offset is at the end. -/
theorem offStep (ibuf : List Nat) (o : Nat) (ho : o ≤ ibuf.length) :
    o ≤ o + (decodeRune (ibuf.drop o)).2 ∧
    o + (decodeRune (ibuf.drop o)).2 ≤ ibuf.length ∧
    (o < o + (decodeRune (ibuf.drop o)).2 ∨
      o + (decodeRune (ibuf.drop o)).2 = ibuf.length) := by
  have hle := decodeRune_size_le (ibuf.drop o)
  rw [List.length_drop] at hle
  rcases Nat.eq_zero_or_pos ((decodeRune (ibuf.drop o)).2) with hz | hz
  · have hlen : ibuf.length ≤ o := by
      have h0 := (decodeRune_size_eq_zero (ibuf.drop o)).mp hz
      have h0' := congrArg List.length h0
      simp at h0'
      omega
    exact ⟨by omega, by omega, by omega⟩
  · exact ⟨by omega, by omega, by omega⟩

/-- The window-loop invariant is preserved by one slide of the offsets. -/
theorem cjkInv_slide (ibuf : List Nat) (ia ib ic id : Nat)
    (h : CjkInv ibuf.length ia ib ic id) :
    CjkInv ibuf.length ib ic id (id + (decodeRune (ibuf.drop id)).2) := by
  obtain ⟨h1, h2, h3, h4, h5, h6, h7⟩ := h
  obtain ⟨g1, g2, g3⟩ := offStep ibuf id h4
  exact ⟨h2, h3, g1, g2, h6, h7, g3⟩

/-- The initial offsets computed by `outputCJK` satisfy the loop
invariant. -/
theorem cjkInv_init (ibuf : List Nat) :
    CjkInv ibuf.length 0 (decodeRune ibuf).2
      ((decodeRune ibuf).2 + (decodeRune (ibuf.drop (decodeRune ibuf).2)).2)
      ((decodeRune ibuf).2 + (decodeRune (ibuf.drop (decodeRune ibuf).2)).2 +
        (decodeRune (ibuf.drop ((decodeRune ibuf).2 +
          (decodeRune (ibuf.drop (decodeRune ibuf).2)).2))).2) := by
  have h0 := offStep ibuf 0 (by omega)
  rw [List.drop_zero] at h0
  obtain ⟨a0, a1, a2⟩ := h0
  obtain ⟨b0, b1, b2⟩ := offStep ibuf (decodeRune ibuf).2 (by omega)
  obtain ⟨c0, c1, c2⟩ := offStep ibuf
    ((decodeRune ibuf).2 + (decodeRune (ibuf.drop (decodeRune ibuf).2)).2) (by omega)
  exact ⟨by omega, by omega, by omega, by omega, by omega, by omega, by omega⟩

/-- Fuel-irrelevance of the CJK window loop under its offset invariant:
`ia` strictly increases while the loop runs, so any fuel above
`ibuf.length - ia` is enough. -/
theorem cjkLoop_congr (accept : Nat → Bool) (ibuf : List Nat) (bPos : Nat) :
    ∀ (f1 f2 ia ib ic id : Nat) (m : SimpleTokenizer),
      CjkInv ibuf.length ia ib ic id →
      ibuf.length < f1 + ia → ibuf.length < f2 + ia →
      cjkLoop accept ibuf bPos f1 ia ib ic id m =
        cjkLoop accept ibuf bPos f2 ia ib ic id m := by
  intro f1
  induction f1 with
  | zero =>
    intro f2 ia ib ic id m hinv hf1 hf2
    obtain ⟨h1, h2, h3, h4, h5, h6, h7⟩ := hinv
    have hguard : ¬ (ia < id) := by omega
    cases f2 with
    | zero => rfl
    | succ f2 =>
      simp only [cjkLoop]
      rw [if_neg hguard]
  | succ f1 ih =>
    intro f2 ia ib ic id m hinv hf1 hf2
    cases f2 with
    | zero =>
      obtain ⟨h1, h2, h3, h4, h5, h6, h7⟩ := hinv
      have hguard : ¬ (ia < id) := by omega
      simp only [cjkLoop]
      rw [if_neg hguard]
    | succ f2 =>
      simp only [cjkLoop]
      by_cases hguard : ia < id
      · rw [if_pos hguard, if_pos hguard]
        have hab : ia < ib := by
          obtain ⟨h1, h2, h3, h4, h5, h6, h7⟩ := hinv
          omega
        split_ifs with hp hd
        · rfl
        · rfl
        · exact ih f2 ib ic id _ _ (cjkInv_slide ibuf ia ib ic id hinv)
            (by omega) (by omega)
      · rw [if_neg hguard, if_neg hguard]

/-- The wrapper `outputCJK` with an explicit fuel parameter (the source
loop has no fuel; `outputCJK` instantiates this with the sufficient
`ibuf.length + 1`). -/
def outputCJKFuel (accept : Nat → Bool) (fuel pos : Nat)
    (m : SimpleTokenizer) : SimpleTokenizer :=
  let ibuf := (m.input.drop m.beginOff).take (pos - m.beginOff)
  let ib := (decodeRune ibuf).2
  let ic := ib + (decodeRune (ibuf.drop ib)).2
  let id := ic + (decodeRune (ibuf.drop ic)).2
  cjkLoop accept ibuf m.beginOff fuel 0 ib ic id m

/-- C9: forward progress and termination.  (i) The byte-offset cursor is
strictly increasing across the iterations of the scan; (ii) the scan loop
terminates — its result is independent of any fuel above the remaining
byte count, because every iteration consumes at least one byte; and
(iii) the inner window-sliding loop of CJK n-gram extraction terminates —
its result is independent of any fuel above the run length, because the
window start offset strictly increases each iteration. -/
theorem C9_progress_and_termination :
    (∀ input : List Nat, List.Chain' (· < ·) (scanPositions input)) ∧
    (∀ (accept : Nat → Bool) (input : List Nat) (f1 f2 : Nat) (h : HState)
        (pos : Nat) (m : SimpleTokenizer),
      input.length - pos < f1 → input.length - pos < f2 →
      scanAux accept input f1 h pos m = scanAux accept input f2 h pos m) ∧
    (∀ (accept : Nat → Bool) (pos : Nat) (m : SimpleTokenizer) (fuel : Nat),
      ((m.input.drop m.beginOff).take (pos - m.beginOff)).length < fuel →
      outputCJKFuel accept fuel pos m = outputCJK accept pos m) := by
  refine ⟨?_, scanAux_congr, ?_⟩
  · intro input
    exact scanPositionsAux_chain input (input.length + 1) 0
  · intro accept pos m fuel hfuel
    show cjkLoop accept _ m.beginOff fuel 0 _ _ _ m =
      cjkLoop accept _ m.beginOff (((m.input.drop m.beginOff).take
        (pos - m.beginOff)).length + 1) 0 _ _ _ m
    exact cjkLoop_congr accept _ m.beginOff fuel _ 0 _ _ _ m
      (cjkInv_init _) (by omega) (by omega)

/-- Witness for C9: both fuel clauses at concrete inputs. -/
theorem C9_progress_and_termination_witness :
    scanAux (fun _ => true) [97, 32, 98] 9 .hBegin 0 (initTokenizer [97, 32, 98]) =
      scanAux (fun _ => true) [97, 32, 98] 4 .hBegin 0 (initTokenizer [97, 32, 98]) ∧
    outputCJKFuel (fun _ => true) 9 3
        { input := [0xE4, 0xB8, 0xAD], beginOff := 0, currTokenPos := 0,
          nextMarker := 100, done := false, out := [], nyield := 0 } =
      outputCJK (fun _ => true) 3
        { input := [0xE4, 0xB8, 0xAD], beginOff := 0, currTokenPos := 0,
          nextMarker := 100, done := false, out := [], nyield := 0 } :=
  ⟨C9_progress_and_termination.2.1 (fun _ => true) [97, 32, 98] 9 4 .hBegin 0
      (initTokenizer [97, 32, 98]) (by decide) (by decide),
    C9_progress_and_termination.2.2 (fun _ => true) 3
      { input := [0xE4, 0xB8, 0xAD], beginOff := 0, currTokenPos := 0,
        nextMarker := 100, done := false, out := [], nyield := 0 } 9 (by decide)⟩

/-! ### UTF-8 round-trip facts and code-point offsets (claim C2) -/

/-- Concatenated UTF-8 encoding of a list of code points. -/
def encList (rs : List Nat) : List Nat :=
  (rs.map utf8Encode).join

/-- A Unicode scalar value: in range and not a surrogate (these are the
code points whose UTF-8 encoding round-trips). -/
def ValidScalar (r : Nat) : Prop :=
  r < 0x110000 ∧ ¬(0xD800 ≤ r ∧ r ≤ 0xDFFF)

instance (r : Nat) : Decidable (ValidScalar r) := by
  unfold ValidScalar
  infer_instance

/-- Byte offset of the `k`-th code point inside the encoding of `rs`. -/
def offAt (rs : List Nat) (k : Nat) : Nat :=
  (encList (rs.take k)).length

theorem encList_nil : encList [] = [] := rfl

theorem encList_cons (a : Nat) (rs : List Nat) :
    encList (a :: rs) = utf8Encode a ++ encList rs := by
  simp [encList]

theorem encList_append (xs ys : List Nat) :
    encList (xs ++ ys) = encList xs ++ encList ys := by
  simp [encList]

theorem utf8Encode_length_pos (r : Nat) : 1 ≤ (utf8Encode r).length := by
  unfold utf8Encode
  split_ifs <;> simp

theorem length_le_encList (rs : List Nat) : rs.length ≤ (encList rs).length := by
  induction rs with
  | nil => simp [encList_nil]
  | cons a rs ih =>
    rw [encList_cons, List.length_append, List.length_cons]
    have := utf8Encode_length_pos a
    omega

/-- Round trip: decoding the encoding of a valid scalar, with anything
appended, recovers the code point and its encoded size. -/
theorem decodeRune_encode (r : Nat) (h : ValidScalar r) (rest : List Nat) :
    decodeRune (utf8Encode r ++ rest) = (r, (utf8Encode r).length) := by
  obtain ⟨hmax, hsur⟩ := h
  by_cases c1 : r < 0x80
  · simp only [utf8Encode, if_pos c1, List.cons_append, List.nil_append,
      decodeRune, List.length_cons, List.length_nil]
  · by_cases c2 : r < 0x800
    · simp only [utf8Encode, if_neg c1, if_pos c2, List.cons_append,
        List.nil_append, decodeRune, List.length_cons, List.length_nil]
      rw [if_neg (by omega), if_neg (by omega), if_pos (by omega : 0xC0 + r / 64 < 0xE0)]
      rw [if_pos (by simp [contB] ; omega)]
      refine Prod.ext ?_ rfl
      simp only
      omega
    · by_cases c3 : r < 0x10000
      · simp only [utf8Encode, if_neg c1, if_neg c2, if_pos c3]
        rw [if_neg (by simp ; omega)]
        simp only [List.cons_append, List.nil_append, decodeRune,
          List.length_cons, List.length_nil]
        rw [if_neg (by omega), if_neg (by omega), if_neg (by omega),
          if_pos (by omega : 0xE0 + r / 4096 < 0xF0)]
        rw [if_pos ?hacc]
        case hacc =>
          by_cases d0 : r / 4096 = 0
          · simp [acceptB1, contB, d0]
            omega
          · by_cases d13 : r / 4096 = 13
            · have hb : (0xE0 + r / 4096 == 0xE0) = false := by simp ; omega
              have hb' : (0xE0 + r / 4096 == 0xED) = true := by simp ; omega
              simp [acceptB1, contB, hb, hb']
              omega
            · have hb : (0xE0 + r / 4096 == 0xE0) = false := by simp ; omega
              have hb' : (0xE0 + r / 4096 == 0xED) = false := by simp ; omega
              have hb3 : (0xE0 + r / 4096 == 0xF0) = false := by simp ; omega
              have hb4 : (0xE0 + r / 4096 == 0xF4) = false := by simp ; omega
              simp [acceptB1, contB, hb, hb', hb3, hb4]
              omega
        refine Prod.ext ?_ rfl
        simp only
        omega
      · simp only [utf8Encode, if_neg c1, if_neg c2, if_neg c3, if_pos hmax,
          List.cons_append, List.nil_append, decodeRune, List.length_cons,
          List.length_nil]
        rw [if_neg (by omega), if_neg (by omega), if_neg (by omega),
          if_neg (by omega : ¬ (0xF0 + r / 262144 < 0xF0)),
          if_pos (by omega : 0xF0 + r / 262144 < 0xF5)]
        rw [if_pos ?hacc4]
        case hacc4 =>
          by_cases d0 : r / 262144 = 0
          · simp [acceptB1, contB, d0]
            omega
          · by_cases d4 : r / 262144 = 4
            · have hb : (0xF0 + r / 262144 == 0xE0) = false := by simp ; omega
              have hb2 : (0xF0 + r / 262144 == 0xED) = false := by simp ; omega
              have hb3 : (0xF0 + r / 262144 == 0xF0) = false := by simp ; omega
              have hb4 : (0xF0 + r / 262144 == 0xF4) = true := by simp ; omega
              simp [acceptB1, contB, hb, hb2, hb3, hb4]
              omega
            · have hb : (0xF0 + r / 262144 == 0xE0) = false := by simp ; omega
              have hb2 : (0xF0 + r / 262144 == 0xED) = false := by simp ; omega
              have hb3 : (0xF0 + r / 262144 == 0xF0) = false := by simp ; omega
              have hb4 : (0xF0 + r / 262144 == 0xF4) = false := by simp ; omega
              simp [acceptB1, contB, hb, hb2, hb3, hb4]
              omega
        refine Prod.ext ?_ rfl
        simp only
        omega

theorem offAt_zero (rs : List Nat) : offAt rs 0 = 0 := rfl

/-- Dropping the encoding of the first `k` code points leaves the encoding
of the remaining code points. -/
theorem encList_drop_offAt (rs : List Nat) (k : Nat) :
    (encList rs).drop (offAt rs k) = encList (rs.drop k) := by
  have h : encList rs = encList (rs.take k) ++ encList (rs.drop k) := by
    rw [← encList_append, List.take_append_drop]
  rw [offAt, h]
  exact List.drop_left _ _

/-- The offset of code point `j+1` is the offset of code point `j` plus
the size decoded there (zero once past the end of the run). -/
theorem offAt_next (rs : List Nat) (hval : ∀ r ∈ rs, ValidScalar r) (j : Nat) :
    offAt rs (j + 1) = offAt rs j + (decodeRune ((encList rs).drop (offAt rs j))).2 := by
  rw [encList_drop_offAt]
  rcases hD : rs.drop j with - | ⟨a, tl⟩
  · have hlen : rs.length ≤ j := by
      have hl := congrArg List.length hD
      simp at hl
      omega
    rw [encList_nil]
    show offAt rs (j + 1) = offAt rs j + 0
    rw [offAt, offAt, List.take_of_length_le hlen, List.take_of_length_le (by omega)]
    omega
  · have ha : ValidScalar a := hval a (List.drop_subset j rs (hD ▸ List.mem_cons_self a tl))
    rw [encList_cons, decodeRune_encode a ha]
    rw [offAt, offAt, List.take_add, hD]
    simp [List.take_succ_cons, encList_append, encList_cons, encList_nil]

theorem offAt_le_succ (rs : List Nat) (k : Nat) : offAt rs k ≤ offAt rs (k + 1) := by
  rw [offAt, offAt, List.take_add, encList_append, List.length_append]
  omega

theorem offAt_lt_succ (rs : List Nat) (k : Nat) (hk : k < rs.length) :
    offAt rs k < offAt rs (k + 1) := by
  rw [offAt, offAt, List.take_add, encList_append, List.length_append]
  rw [List.drop_eq_getElem_cons hk]
  simp only [List.take_succ_cons, List.take_zero, encList_cons, encList_nil,
    List.append_nil]
  have := utf8Encode_length_pos (rs[k])
  omega

/-- Past the end of the run the offsets are pinned to the total length. -/
theorem offAt_of_le (rs : List Nat) (k : Nat) (hk : rs.length ≤ k) :
    offAt rs k = (encList rs).length := by
  rw [offAt, List.take_of_length_le hk]

/-- The bytes between offsets `k` and `k + w` are the encoding of the `w`
code points starting at `k`. -/
theorem encList_window (rs : List Nat) (k w : Nat) :
    ((encList rs).drop (offAt rs k)).take (offAt rs (k + w) - offAt rs k) =
      encList ((rs.drop k).take w) := by
  rw [encList_drop_offAt]
  have hoff : offAt rs (k + w) = offAt rs k + (encList ((rs.drop k).take w)).length := by
    rw [offAt, offAt, List.take_add, encList_append, List.length_append]
  rw [hoff]
  have harith : offAt rs k + (encList ((rs.drop k).take w)).length - offAt rs k =
      (encList ((rs.drop k).take w)).length := by omega
  rw [harith]
  have hsplit : encList (rs.drop k) =
      encList ((rs.drop k).take w) ++ encList ((rs.drop k).drop w) := by
    rw [← encList_append, List.take_append_drop]
  rw [hsplit]
  exact List.take_left _ _

/-- Peeling one window off the list of n-gram tokens for a run suffix. -/
theorem windows_succ (rs : List Nat) (k : Nat) (hk : k < rs.length) (c : Nat) :
    (List.range (rs.length - k)).map (fun i =>
        mkToken (encList ((rs.drop (k + i)).take 3)) (c + i)) =
      mkToken (encList ((rs.drop k).take 3)) c ::
        (List.range (rs.length - (k + 1))).map (fun i =>
          mkToken (encList ((rs.drop (k + 1 + i)).take 3)) (c + 1 + i)) := by
  have hn : rs.length - k = (rs.length - (k + 1)) + 1 := by omega
  rw [hn, List.range_succ_eq_map, List.map_cons, List.map_map]
  refine congrArg₂ List.cons (by simp) ?_
  refine List.map_congr_left ?_
  intro i hi
  simp only [Function.comp_apply, Nat.succ_eq_add_one]
  rw [show k + (i + 1) = k + 1 + i from by omega,
    show c + (i + 1) = c + 1 + i from by omega]

/-- Behaviour of the window loop on the encoding of a run of valid code
points, started (as `outputCJK` starts it) at the offsets of code points
`k`, `k+1`, `k+2`, `k+3`, with an always-accepting consumer and no marker
crossing in range: it emits one token per remaining code point — the raw
bytes of the up-to-3-code-point window starting there — at consecutive
counter values, advancing the counter once per window. -/
theorem cjkLoop_spec (rs : List Nat) (hval : ∀ r ∈ rs, ValidScalar r) (bPos : Nat) :
    ∀ (fuel k : Nat) (m : SimpleTokenizer),
      rs.length - k < fuel → m.done = false →
      m.currTokenPos + (rs.length - k) < m.nextMarker →
      cjkLoop (fun _ => true) (encList rs) bPos fuel
          (offAt rs k) (offAt rs (k + 1)) (offAt rs (k + 2)) (offAt rs (k + 3)) m =
        { m with
          currTokenPos := m.currTokenPos + (rs.length - k),
          nyield := m.nyield + (rs.length - k),
          out := m.out ++ (List.range (rs.length - k)).map (fun i =>
            mkToken (encList ((rs.drop (k + i)).take 3)) (m.currTokenPos + i)) } := by
  intro fuel
  induction fuel with
  | zero =>
    intro k m hf hdone hmk
    omega
  | succ fuel ih =>
    intro k m hf hdone hmk
    by_cases hk : k < rs.length
    · have e2 : offAt rs (k + 2) = offAt rs (k + 1 + 1) := by
        rw [show k + 1 + 1 = k + 2 from by omega]
      have e3 : offAt rs (k + 3) = offAt rs (k + 1 + 2) := by
        rw [show k + 1 + 2 = k + 3 from by omega]
      have e4 : offAt rs (k + 3 + 1) = offAt rs (k + 1 + 3) := by
        rw [show k + 1 + 3 = k + 3 + 1 from by omega]
      have hguard : offAt rs k < offAt rs (k + 3) := by
        have h1 := offAt_lt_succ rs k hk
        have h2 := offAt_le_succ rs (k + 1)
        have h3 := offAt_le_succ rs (k + 2)
        rw [← e2] at h2
        rw [show k + 2 + 1 = k + 3 from by omega] at h3
        omega
      simp only [cjkLoop]
      rw [if_pos hguard, encList_window rs k 3]
      simp only [doYield, Bool.not_true, Bool.false_eq_true, if_false]
      rw [incrTokenCount_noMarker _ _ _ _ (by simp ; omega)]
      rw [if_neg (by simp [hdone])]
      rw [← offAt_next rs hval (k + 3)]
      rw [e2, e3, e4]
      simp only []
      have hrec := ih (k + 1)
        { m with
          currTokenPos := m.currTokenPos + 1,
          out := m.out ++ [mkToken (encList ((rs.drop k).take 3)) m.currTokenPos],
          nyield := m.nyield + 1 }
        (by omega) (by simp [hdone]) (by simp ; omega)
      rw [hrec]
      simp only []
      rw [windows_succ rs k hk m.currTokenPos]
      simp only [SimpleTokenizer.mk.injEq, List.append_assoc, List.singleton_append,
        true_and, and_true]
      omega
    · have hz : rs.length - k = 0 := by omega
      have hEq : offAt rs k = offAt rs (k + 3) := by
        rw [offAt_of_le rs k (by omega), offAt_of_le rs (k + 3) (by omega)]
      simp only [cjkLoop]
      rw [if_neg (by omega)]
      rw [hz]
      simp

/-- The concrete CJK run 相见时难别亦难 used by the repository's own test. -/
def sampleCJKRun : List Nat :=
  [0x76F8, 0x89C1, 0x65F6, 0x96BE, 0x522B, 0x4EA6, 0x96BE]

/-- C2: closing a maximal CJK run of `n` code points emits exactly `n`
tokens: windows of 3, 3, …, 3, 2, 1 code points obtained by sliding one
code point at a time (window `i` is `(rs.drop i).take 3`, so the last two
windows have widths 2 and 1, and a run of length 1 or 2 degenerates
accordingly).  Each payload is the raw UTF-8 bytes of the span — never
case-folded — each position is the current logical counter, and the
counter advances by 1 after every window.  Stated for a run embedded at
byte offset `pre.length`, an always-accepting consumer, and no marker
crossing inside the run. -/
theorem C2_cjk_window_extraction (rs pre suf : List Nat) (m : SimpleTokenizer)
    (hval : ∀ r ∈ rs, ValidScalar r)
    (hinput : m.input = pre ++ encList rs ++ suf)
    (hbeg : m.beginOff = pre.length)
    (hdone : m.done = false)
    (hmk : m.currTokenPos + rs.length < m.nextMarker) :
    outputCJK (fun _ => true) (pre.length + (encList rs).length) m =
      { m with
        currTokenPos := m.currTokenPos + rs.length,
        nyield := m.nyield + rs.length,
        out := m.out ++ (List.range rs.length).map (fun i =>
          mkToken (encList ((rs.drop i).take 3)) (m.currTokenPos + i)) } := by
  have hibuf : (m.input.drop m.beginOff).take
      (pre.length + (encList rs).length - m.beginOff) = encList rs := by
    rw [hinput, hbeg, List.append_assoc, List.drop_left]
    rw [show pre.length + (encList rs).length - pre.length = (encList rs).length
      from by omega]
    exact List.take_left _ _
  have h1 : (decodeRune (encList rs)).2 = offAt rs 1 := by
    have h := offAt_next rs hval 0
    rw [offAt_zero, List.drop_zero] at h
    norm_num at h
    omega
  have h2 : offAt rs 1 + (decodeRune ((encList rs).drop (offAt rs 1))).2 =
      offAt rs 2 := by
    have h := offAt_next rs hval 1
    norm_num at h
    omega
  have h3 : offAt rs 2 + (decodeRune ((encList rs).drop (offAt rs 2))).2 =
      offAt rs 3 := by
    have h := offAt_next rs hval 2
    norm_num at h
    omega
  simp only [outputCJK, hibuf, h1, h2, h3]
  have hspec := cjkLoop_spec rs hval m.beginOff ((encList rs).length + 1) 0 m
    (by have := length_le_encList rs ; omega) hdone (by simpa using hmk)
  rw [offAt_zero] at hspec
  norm_num at hspec
  rw [hspec]

/-- Witness for C2 at the test run 相见时难别亦难 (7 code points, so the
windows are five 3-wide, one 2-wide, one 1-wide, at positions 0..6). -/
theorem C2_cjk_window_extraction_witness :
    (∀ r ∈ sampleCJKRun, ValidScalar r) ∧
    outputCJK (fun _ => true)
        (List.length ([] : List Nat) + (encList sampleCJKRun).length)
        (initTokenizer (encList sampleCJKRun)) =
      { initTokenizer (encList sampleCJKRun) with
        currTokenPos :=
          (initTokenizer (encList sampleCJKRun)).currTokenPos + sampleCJKRun.length,
        nyield :=
          (initTokenizer (encList sampleCJKRun)).nyield + sampleCJKRun.length,
        out := (initTokenizer (encList sampleCJKRun)).out ++
          (List.range sampleCJKRun.length).map (fun i =>
            mkToken (encList ((sampleCJKRun.drop i).take 3))
              ((initTokenizer (encList sampleCJKRun)).currTokenPos + i)) } :=
  ⟨by decide,
    C2_cjk_window_extraction sampleCJKRun [] [] (initTokenizer (encList sampleCJKRun))
      (by decide) (by decide) (by decide) (by decide) (by decide)⟩

end Monlp
